import Mathlib

/-
  Verification development for the Stratum cache-hierarchy simulator.

  Shallow embedding of:
  - the replacement policies (`policies.hpp`: LRUPolicy with the flattened
    timestamp array, FIFOPolicy with the per-set circular pointer);
  - the templated cache hierarchy (`cache_sim.hpp`: `Cache<Name, Next, Sets,
    Ways, BlockSize, Policy, HitLatency>` and `MainMemory`), with the static
    template topology modelled as a `Config` tree and the mutable object state
    as a parallel `StateH` tree;
  - the statistics-aggregation loop of `main.cpp`;
  - the trace-line parsing of `trace_parser.hpp` and the dispatch of
    `RunTraceSimulation` in `simulation.hpp`.

  Machine integers: addresses and tags are C++ uint64; all arithmetic on them
  in the source (division, modulo, multiplication by block size of an address
  that fits in 64 bits) cannot overflow, so they are modelled as `Nat`.  The
  LRU timestamp counters are uint64 and are incremented unboundedly, so they
  are reduced mod 2^64 exactly where the source stores them.

  Each `Load`/`Store` additionally returns a ghost list of the calls received
  by the levels of its subtree (`Ev`), appended exactly at the call sites of
  the source; this observation does not influence results or state.
-/

set_option linter.unusedVariables false

namespace Stratum

/-- One cache line: `Line{valid, dirty, tag}` from `cache_sim.hpp`. -/
structure Line where
  valid : Bool
  dirty : Bool
  tag : Nat
deriving DecidableEq, Repr

instance : Inhabited Line := ⟨⟨false, false, 0⟩⟩

/-- `AccessResult{hit_level, total_cycles}` from `cache_sim.hpp`. -/
structure AccessResult where
  hit_level : String
  total_cycles : Nat
deriving DecidableEq, Repr

/-- `AccessType` from `cache_sim.hpp`. -/
inductive AccessType where
  | kLoad
  | kStore
deriving DecidableEq, Repr

/-- Ghost observation: one `Load` or `Store` call received by a level,
with the address passed to it. -/
inductive Ev where
  | load (level : String) (addr : Nat)
  | store (level : String) (addr : Nat)
deriving DecidableEq, Repr

/-- 2^64, the modulus of the uint64 timestamp counters. -/
def U64 : Nat := 2 ^ 64

/-- Replacement-policy state.  `lru` carries the flattened
`timestamps_` array (layout `set_idx * num_ways_ + way_idx`) and the per-set
`set_counters_` of `LRUPolicy`; `fifo` carries the per-set `next_victim_`
circular pointers of `FIFOPolicy`. -/
inductive PolState where
  | lru (numSets numWays : Nat) (timestamps : List Nat) (setCounters : List Nat)
  | fifo (numSets numWays : Nat) (nextVictim : List Nat)
deriving DecidableEq, Repr

/-- `LRUPolicy::OnHit` (increment the set counter, stamp the way) and
`FIFOPolicy::OnHit` (no-op). -/
def OnHit : PolState → Nat → Nat → PolState
  | .lru s w ts cnt, setIdx, wayIdx =>
      .lru s w (ts.set (setIdx * w + wayIdx) ((cnt.getD setIdx 0 + 1) % U64))
        (cnt.set setIdx ((cnt.getD setIdx 0 + 1) % U64))
  | .fifo s w nv, _, _ => .fifo s w nv

/-- `LRUPolicy::OnFill` (delegates to `OnHit`) and `FIFOPolicy::OnFill`
(advance the set's circular pointer modulo `num_ways_`). -/
def OnFill : PolState → Nat → Nat → PolState
  | .lru s w ts cnt, setIdx, wayIdx => OnHit (.lru s w ts cnt) setIdx wayIdx
  | .fifo s w nv, setIdx, _ => .fifo s w (nv.set setIdx ((nv.getD setIdx 0 + 1) % w))

/-- `LRUPolicy::GetVictim` (linear scan for the smallest timestamp, starting
from `victim_way = 0`, `min_time = UINT64_MAX`, updating on strict `<`) and
`FIFOPolicy::GetVictim` (return the pointer without mutating it). -/
def GetVictim : PolState → Nat → Nat
  | .lru _ w ts _, setIdx =>
      ((List.range w).foldl
        (fun acc way =>
          if ts.getD (setIdx * w + way) 0 < acc.2 then (way, ts.getD (setIdx * w + way) 0)
          else acc)
        (0, U64 - 1)).1
  | .fifo _ _ nv, setIdx => nv.getD setIdx 0

/-- The static template topology: `Cache<Name, Next, Sets, Ways, BlockSize,
Policy, HitLatency>` chains ending in `MainMemory<Name>` with its latency. -/
inductive PolicyKind where
  | lru
  | fifo
deriving DecidableEq, Repr

inductive Config where
  | mem (name : String) (latency : Nat)
  | cache (name : String) (sets ways blockSize hitLatency : Nat)
      (policy : PolicyKind) (next : Config)
deriving DecidableEq, Repr

/-- The mutable object state of a hierarchy instance: the `sets_` line grid,
the policy object, the `hits_`/`misses_`/`evictions_` counters and the owned
next level.  `MainMemory` has no mutable state. -/
inductive StateH where
  | mem : StateH
  | cache (lines : List (List Line)) (pol : PolState)
      (hits misses evictions : Nat) (next : StateH)
deriving DecidableEq, Repr

/-- `set_idx = (addr / BlockSize) % Sets` as computed in `Load`/`Store`. -/
def SetIndexOf (blockSize sets addr : Nat) : Nat := (addr / blockSize) % sets

/-- `tag = (addr / BlockSize) / Sets` as computed in `Load`/`Store`. -/
def TagOf (blockSize sets addr : Nat) : Nat := (addr / blockSize) / sets

/-- `evict_addr = (victim.tag * Sets + set_idx) * BlockSize` from `Fill`. -/
def EvictAddr (sets blockSize tag setIdx : Nat) : Nat := (tag * sets + setIdx) * blockSize

/-- The tag-lookup loop of `Load`/`Store`: first way with
`valid && tag == tg`, scanning ways in increasing order. -/
def FindWay : List Line → Nat → Option Nat
  | [], _ => none
  | l :: rest, tg =>
      if l.valid && l.tag == tg then some 0 else (FindWay rest tg).map (· + 1)

/-- The first loop of `Fill`: lowest way index holding an invalid line. -/
def FirstInvalid : List Line → Option Nat
  | [] => none
  | l :: rest => if !l.valid then some 0 else (FirstInvalid rest).map (· + 1)

/-- The victim-selection part of `Fill`, split from the mutation so that the
recursive write-back call can stay at the `Load`/`Store` call sites: returns
the chosen way, and `some evict_addr` exactly when the set is full and the
victim line is valid and dirty (the case in which `Fill` issues
`next_->Store(evict_addr)` and counts an eviction). -/
def FillPlan (sets blockSize : Nat) (set : List Line) (pol : PolState)
    (setIdx tg : Nat) : Nat × Option Nat :=
  match FirstInvalid set with
  | some w => (w, none)
  | none =>
      let v := GetVictim pol setIdx
      let vl := set.getD v default
      if vl.valid && vl.dirty then (v, some (EvictAddr sets blockSize vl.tag setIdx))
      else (v, none)

/-- The line overwrite of `Fill`: mark the chosen line valid, stamp its tag,
clear dirty. -/
def SetLines (lines : List (List Line)) (setIdx v tg : Nat) : List (List Line) :=
  lines.set setIdx ((lines.getD setIdx []).set v ⟨true, false, tg⟩)

/-- The hit branch of `Store`: `sets_[set_idx][way_idx].dirty = true`. -/
def MarkDirtyAt (lines : List (List Line)) (setIdx w : Nat) : List (List Line) :=
  lines.set setIdx
    ((lines.getD setIdx []).set w
      { (lines.getD setIdx []).getD w default with dirty := true })

/-- The post-`Fill` loop of `Store`: mark the first valid line with the
requested tag dirty (no change when no line matches). -/
def MarkDirty (lines : List (List Line)) (setIdx tg : Nat) : List (List Line) :=
  match FindWay (lines.getD setIdx []) tg with
  | some w => MarkDirtyAt lines setIdx w
  | none => lines

mutual

/-- `MainMemory::Load` / `Cache::Load`: tag lookup; on hit count a hit,
notify the policy and return `{Name, HitLatency}`; on miss count a miss,
delegate `next_->Load(addr)`, add `HitLatency` to the returned cycles,
`Fill` (possibly issuing the dirty write-back `next_->Store(evict_addr)`
and counting an eviction) and return the augmented result. -/
def Load : Config → StateH → Nat → AccessResult × StateH × List Ev
  | .mem n lat, s, a => (⟨n, lat⟩, s, [Ev.load n a])
  | .cache n S W B hl _ next, .cache lines pol hs ms evc sn, a =>
      match FindWay (lines.getD (SetIndexOf B S a) []) (TagOf B S a) with
      | some w =>
          (⟨n, hl⟩,
           .cache lines (OnHit pol (SetIndexOf B S a) w) (hs + 1) ms evc sn,
           [Ev.load n a])
      | none =>
          match Load next sn a with
          | (r, next1, ev1) =>
            match FillPlan S B (lines.getD (SetIndexOf B S a) []) pol
                (SetIndexOf B S a) (TagOf B S a) with
            | (v, none) =>
                (⟨r.hit_level, r.total_cycles + hl⟩,
                 .cache (SetLines lines (SetIndexOf B S a) v (TagOf B S a))
                   (OnFill pol (SetIndexOf B S a) v) hs (ms + 1) evc next1,
                 Ev.load n a :: ev1)
            | (v, some ea) =>
                match Store next next1 ea with
                | (_, next2, ev2) =>
                    (⟨r.hit_level, r.total_cycles + hl⟩,
                     .cache (SetLines lines (SetIndexOf B S a) v (TagOf B S a))
                       (OnFill pol (SetIndexOf B S a) v) hs (ms + 1) (evc + 1) next2,
                     Ev.load n a :: (ev1 ++ ev2))
  | .cache n _ _ _ _ _ _, s, a => (⟨n, 0⟩, s, [Ev.load n a])

/-- `MainMemory::Store` / `Cache::Store`: on hit mark the line dirty, notify
the policy, return `{Name, HitLatency}` without touching the next level; on
miss (write-allocate) delegate `next_->Load(addr)`, add `HitLatency`, `Fill`,
then mark the newly filled line dirty. -/
def Store : Config → StateH → Nat → AccessResult × StateH × List Ev
  | .mem n lat, s, a => (⟨n, lat⟩, s, [Ev.store n a])
  | .cache n S W B hl _ next, .cache lines pol hs ms evc sn, a =>
      match FindWay (lines.getD (SetIndexOf B S a) []) (TagOf B S a) with
      | some w =>
          (⟨n, hl⟩,
           .cache (MarkDirtyAt lines (SetIndexOf B S a) w)
             (OnHit pol (SetIndexOf B S a) w) (hs + 1) ms evc sn,
           [Ev.store n a])
      | none =>
          match Load next sn a with
          | (r, next1, ev1) =>
            match FillPlan S B (lines.getD (SetIndexOf B S a) []) pol
                (SetIndexOf B S a) (TagOf B S a) with
            | (v, none) =>
                (⟨r.hit_level, r.total_cycles + hl⟩,
                 .cache (MarkDirty (SetLines lines (SetIndexOf B S a) v (TagOf B S a))
                     (SetIndexOf B S a) (TagOf B S a))
                   (OnFill pol (SetIndexOf B S a) v) hs (ms + 1) evc next1,
                 Ev.store n a :: ev1)
            | (v, some ea) =>
                match Store next next1 ea with
                | (_, next2, ev2) =>
                    (⟨r.hit_level, r.total_cycles + hl⟩,
                     .cache (MarkDirty (SetLines lines (SetIndexOf B S a) v (TagOf B S a))
                         (SetIndexOf B S a) (TagOf B S a))
                       (OnFill pol (SetIndexOf B S a) v) hs (ms + 1) (evc + 1) next2,
                     Ev.store n a :: (ev1 ++ ev2))
  | .cache n _ _ _ _ _ _, s, a => (⟨n, 0⟩, s, [Ev.store n a])

end

/-- The constructor chain: `sets_(Sets, std::vector<Line>(Ways))` (all lines
invalid), freshly constructed policy state, zeroed counters, recursively
constructed next level. -/
def InitState : Config → StateH
  | .mem _ _ => .mem
  | .cache _ S W _ _ pk next =>
      .cache (List.replicate S (List.replicate W ⟨false, false, 0⟩))
        (match pk with
         | .lru => .lru S W (List.replicate (S * W) 0) (List.replicate S 0)
         | .fifo => .fifo S W (List.replicate S 0))
        0 0 0 (InitState next)

/-- The simulation loop: dispatch each `(op, addr)` through the top level in
strict order, threading the mutated state. -/
def RunOps (cfg : Config) : StateH → List (AccessType × Nat) → StateH
  | s, [] => s
  | s, (t, a) :: rest =>
      RunOps cfg
        (match t with
         | .kLoad => (Load cfg s a).2.1
         | .kStore => (Store cfg s a).2.1) rest

/-- Level name of the top of a hierarchy. -/
def NameOf : Config → String
  | .mem n _ => n
  | .cache n _ _ _ _ _ _ => n

/-- Line grid of the top level of a state (empty for `MainMemory`). -/
def LinesOf : StateH → List (List Line)
  | .mem => []
  | .cache lines _ _ _ _ _ => lines

/-- Policy state of the top level of a state. -/
def PolOf : StateH → PolState
  | .mem => .fifo 0 0 []
  | .cache _ pol _ _ _ _ => pol

/-- State of the next level below the top. -/
def NextOf : StateH → StateH
  | .mem => .mem
  | .cache _ _ _ _ _ sn => sn

/-- `CacheStats{hits, misses, total_latency}` from `main.cpp`. -/
structure CacheStats where
  hits : Nat
  misses : Nat
  total_latency : Nat
deriving DecidableEq, Repr

/-- The default-constructed entry that `std::map::operator[]` creates. -/
def EmptyStats : CacheStats := ⟨0, 0, 0⟩

/-- Point update of the `stats_db` map. -/
def UpdateDb (db : String → CacheStats) (k : String) (f : CacheStats → CacheStats) :
    String → CacheStats :=
  fun n => if n = k then f (db k) else db n

/-- The inner loop of the aggregation pass in `main.cpp`: walk the hierarchy
names in order; before the name matching `hit_level` increment that level's
misses; at the matching name increment hits, add `total_cycles`, and stop.
Returns the updated map and the `hit_found` flag. -/
def WalkLevels (res : AccessResult) : List String → (String → CacheStats) →
    (String → CacheStats) × Bool
  | [], db => (db, false)
  | name :: rest, db =>
      if name = res.hit_level then
        (UpdateDb db name (fun st => ⟨st.hits + 1, st.misses, st.total_latency + res.total_cycles⟩),
         true)
      else
        WalkLevels res rest (UpdateDb db name (fun st => ⟨st.hits, st.misses + 1, st.total_latency⟩))

/-- One iteration of the outer aggregation loop of `main.cpp`; the second
component counts the `"Error: Hit level ... not in hierarchy def!"`
diagnostics printed when `hit_found` stayed false. -/
def AggStep (hierarchy : List String) (acc : (String → CacheStats) × Nat)
    (res : AccessResult) : (String → CacheStats) × Nat :=
  ((WalkLevels res hierarchy acc.1).1,
   if (WalkLevels res hierarchy acc.1).2 then acc.2 else acc.2 + 1)

/-- The whole aggregation pass of `main.cpp` over the access history. -/
def Aggregate (hierarchy : List String) (history : List AccessResult) :
    (String → CacheStats) × Nat :=
  history.foldl (AggStep hierarchy) (fun _ => EmptyStats, 0)

/-- `TraceOp{type, addr}` from `trace_parser.hpp`. -/
structure TraceOp where
  type : Char
  addr : Nat
deriving DecidableEq, Repr

/-- What `ParseTraceFile` does with one line. -/
inductive LineOutcome where
  | ignored
  | skippedSilent
  | skippedDiag
  | parsedOp (op : TraceOp)
deriving DecidableEq, Repr

/-- The whitespace set that `operator>>` and `std::stoull` skip. -/
def IsWs (c : Char) : Bool :=
  c == ' ' || c == '\t' || c == '\r' || c == '\x0b' || c == '\x0c'

/-- Value of one hexadecimal digit, if any. -/
def HexVal (c : Char) : Option Nat :=
  if '0' ≤ c ∧ c ≤ '9' then some (c.toNat - '0'.toNat)
  else if 'a' ≤ c ∧ c ≤ 'f' then some (c.toNat - 'a'.toNat + 10)
  else if 'A' ≤ c ∧ c ≤ 'F' then some (c.toNat - 'A'.toNat + 10)
  else none

/-- `std::stoull(addr_str, nullptr, 16)` on the extracted token: skip leading
whitespace, optional sign (a minus wraps in uint64 arithmetic), optional
`0x`/`0X` prefix only when a hex digit follows it, then the longest hex-digit
prefix; trailing characters are ignored.  `none` models the thrown
`invalid_argument` (no digits) or `out_of_range` (value above `ULLONG_MAX`)
that the caller catches. -/
def Stoull16 (tok : List Char) : Option Nat :=
  let cs := tok.dropWhile IsWs
  let signed :=
    match cs with
    | '-' :: r => (true, r)
    | '+' :: r => (false, r)
    | r => (false, r)
  let body :=
    match signed.2 with
    | '0' :: c :: r =>
        if (c = 'x' ∨ c = 'X') ∧ (r.head?.bind HexVal).isSome then r else signed.2
    | r => r
  let digits := body.takeWhile (fun c => (HexVal c).isSome)
  if digits.isEmpty then none
  else
    let v := digits.foldl (fun acc c => acc * 16 + (HexVal c).getD 0) 0
    if v ≤ U64 - 1 then some (if signed.1 then (U64 - v % U64) % U64 else v) else none

/-- One iteration of the `ParseTraceFile` loop: skip empty lines and lines
whose first character is `#`; extract `ss >> type >> addr_str` (a silent
`continue` when extraction fails); convert `addr_str` with `stoull` base 16
(a `Warning: Skipping invalid line` diagnostic and `continue` when it
throws); otherwise push `{type, addr}` — the op character itself is never
validated. -/
def ParseLine (l : List Char) : LineOutcome :=
  if l.isEmpty ∨ l.head? = some '#' then .ignored
  else
    match l.dropWhile IsWs with
    | [] => .skippedSilent
    | t :: r =>
        match (r.dropWhile IsWs).takeWhile (fun c => !IsWs c) with
        | [] => .skippedSilent
        | tok =>
            match Stoull16 tok with
            | none => .skippedDiag
            | some v => .parsedOp ⟨t, v⟩

/-- `ParseTraceFile`: the operations pushed for a list of lines, in order. -/
def ParseTraceLines (ls : List (List Char)) : List TraceOp :=
  ls.filterMap (fun l =>
    match ParseLine l with
    | .parsedOp op => some op
    | _ => none)

/-- The dispatch in `RunTraceSimulation`: `op.type == 'L'` runs `Load`,
every other op character runs `Store`. -/
def DispatchType (op : TraceOp) : AccessType :=
  if op.type = 'L' then .kLoad else .kStore

/-- Derived observer for stating C5, following the spec's words: the name and
`hit_latency` of the level that ultimately satisfies the request — the first
level whose tag lookup succeeds on the current state, or the terminal memory. -/
def SatisfyingLevel : Config → StateH → Nat → String × Nat
  | .mem n lat, _, _ => (n, lat)
  | .cache n S W B hl _ next, .cache lines _ _ _ _ sn, a =>
      match FindWay (lines.getD (SetIndexOf B S a) []) (TagOf B S a) with
      | some _ => (n, hl)
      | none => SatisfyingLevel next sn a
  | .cache n _ _ _ _ _ _, _, _ => (n, 0)

/-- Derived observer for stating C5, following the spec's words: the sum of
the `hit_latency` of every level above the satisfying one, each missed level
contributing exactly its own `hit_latency`. -/
def MissedLatencySum : Config → StateH → Nat → Nat
  | .mem _ _, _, _ => 0
  | .cache _ S W B hl _ next, .cache lines _ _ _ _ sn, a =>
      match FindWay (lines.getD (SetIndexOf B S a) []) (TagOf B S a) with
      | some _ => 0
      | none => hl + MissedLatencySum next sn a
  | .cache _ _ _ _ _ _ _, _, _ => 0

/-- The §3 invariant on one set: at most one valid line holds a given tag. -/
def UniqSet (set : List Line) : Prop :=
  ∀ i j, i < set.length → j < set.length → i ≠ j →
    (set.getD i default).valid = true → (set.getD j default).valid = true →
    (set.getD i default).tag ≠ (set.getD j default).tag

/-- The §3 invariant on every cache level of a hierarchy state. -/
def Inv : StateH → Prop
  | .mem => True
  | .cache lines _ _ _ _ sn => (∀ set ∈ lines, UniqSet set) ∧ Inv sn

/-- Structural well-formedness of a policy state against its level's
geometry: the dimensions recorded at construction, the array sizes from
the constructors, uint64 bounds on the stored timestamps and counters, and
`next_victim_` entries in `[0, ways)` (established by construction and by
`OnFill`'s modulo). -/
def PolWFb : PolicyKind → PolState → Nat → Nat → Bool
  | .lru, .lru s w ts cnt, S, W =>
      s == S && w == W && ts.length == S * W && cnt.length == S &&
        ts.all (fun t => decide (t < U64)) && cnt.all (fun t => decide (t < U64))
  | .fifo, .fifo s w nv, S, W =>
      s == S && w == W && nv.length == S && nv.all (fun v => decide (v < W))
  | _, _, _, _ => false

/-- Structural well-formedness of a state against its configuration: the
line grid is `Sets × Ways`, the policy state matches, and recursively below. -/
def WFb : Config → StateH → Bool
  | .mem _ _, .mem => true
  | .cache _ S W _ _ pk next, .cache lines pol _ _ _ sn =>
      lines.length == S && lines.all (fun set => set.length == W) &&
        PolWFb pk pol S W && WFb next sn
  | _, _ => false

/-! ### List helpers -/

theorem getD_set_self {α : Type} (l : List α) (i : Nat) (x d : α) (h : i < l.length) :
    (l.set i x).getD i d = x := by
  rw [List.getD_eq_getElem?_getD, List.getElem?_set_self h]
  rfl

theorem getD_set_ne {α : Type} (l : List α) (i j : Nat) (x d : α) (h : i ≠ j) :
    (l.set i x).getD j d = l.getD j d := by
  rw [List.getD_eq_getElem?_getD, List.getElem?_set_ne h, ← List.getD_eq_getElem?_getD]

theorem getD_replicate {α : Type} (n i : Nat) (x d : α) (h : i < n) :
    (List.replicate n x).getD i d = x := by
  rw [List.getD_eq_getElem?_getD, List.getElem?_replicate, if_pos h]
  rfl

theorem getD_mem {α : Type} (l : List α) (i : Nat) (d : α) (h : i < l.length) :
    l.getD i d ∈ l := by
  rw [List.getD_eq_getElem?_getD, List.getElem?_eq_getElem h]
  exact List.getElem_mem h

theorem getD_lt_of_all {nv : List Nat} {W : Nat} (i : Nat) (h : ∀ x ∈ nv, x < W)
    (hW : 0 < W) : nv.getD i 0 < W := by
  rw [List.getD_eq_getElem?_getD]
  cases hx : nv[i]? with
  | none => simpa using hW
  | some x => exact h x (List.getElem?_mem hx)

theorem dropWhile_eq_self_of {α : Type} {p : α → Bool} {l : List α}
    (h : ∀ c ∈ l, p c = false) : l.dropWhile p = l := by
  cases l with
  | nil => rfl
  | cons c r => rw [List.dropWhile_cons, h c (by simp)]; simp

theorem takeWhile_eq_self_of {α : Type} {p : α → Bool} {l : List α}
    (h : ∀ c ∈ l, p c = true) : l.takeWhile p = l := by
  induction l with
  | nil => rfl
  | cons c r ih =>
      rw [List.takeWhile_cons, h c (by simp), ih (fun x hx => h x (by simp [hx]))]
      simp

/-! ### Lookup-loop specifications -/

theorem findWay_some {set : List Line} {tg w : Nat} (h : FindWay set tg = some w) :
    w < set.length ∧ (set.getD w default).valid = true ∧ (set.getD w default).tag = tg := by
  induction set generalizing w with
  | nil => simp [FindWay] at h
  | cons l rest ih =>
      rw [FindWay] at h
      by_cases hc : (l.valid && l.tag == tg) = true
      · rw [if_pos hc] at h
        cases h
        simp only [Bool.and_eq_true, beq_iff_eq] at hc
        exact ⟨Nat.succ_pos _, hc.1, hc.2⟩
      · rw [if_neg hc] at h
        cases hfr : FindWay rest tg with
        | none => rw [hfr] at h; simp at h
        | some w0 =>
            rw [hfr] at h
            simp only [Option.map_some'] at h
            cases h
            obtain ⟨h1, h2, h3⟩ := ih hfr
            exact ⟨by simpa using Nat.succ_lt_succ h1, by simpa using h2, by simpa using h3⟩

theorem findWay_none {set : List Line} {tg : Nat} (h : FindWay set tg = none) :
    ∀ j, j < set.length →
      ¬((set.getD j default).valid = true ∧ (set.getD j default).tag = tg) := by
  induction set with
  | nil => intro j hj; simp at hj
  | cons l rest ih =>
      rw [FindWay] at h
      by_cases hc : (l.valid && l.tag == tg) = true
      · rw [if_pos hc] at h; cases h
      · rw [if_neg hc] at h
        intro j hj
        cases j with
        | zero =>
            intro ⟨hv, ht⟩
            exact hc (by rw [Bool.and_eq_true, beq_iff_eq]; exact ⟨hv, ht⟩)
        | succ j0 =>
            have : FindWay rest tg = none := by
              cases hfr : FindWay rest tg with
              | none => rfl
              | some w0 => rw [hfr] at h; simp at h
            exact ih this j0 (by simpa using hj)

theorem findWay_isSome {set : List Line} {tg : Nat} (j : Nat) (hj : j < set.length)
    (hv : (set.getD j default).valid = true) (ht : (set.getD j default).tag = tg) :
    ∃ w, FindWay set tg = some w := by
  cases hfw : FindWay set tg with
  | some w => exact ⟨w, rfl⟩
  | none => exact absurd ⟨hv, ht⟩ (findWay_none hfw j hj)

theorem firstInvalid_some {set : List Line} {w : Nat} (h : FirstInvalid set = some w) :
    w < set.length := by
  induction set generalizing w with
  | nil => simp [FirstInvalid] at h
  | cons l rest ih =>
      rw [FirstInvalid] at h
      by_cases hc : (!l.valid) = true
      · rw [if_pos hc] at h; cases h; simp
      · rw [if_neg hc] at h
        cases hfr : FirstInvalid rest with
        | none => rw [hfr] at h; simp at h
        | some w0 =>
            rw [hfr] at h
            simp only [Option.map_some'] at h
            cases h
            simpa using Nat.succ_lt_succ (ih hfr)

/-! ### LRU scan specification -/

/-- The scan of `LRUPolicy::GetVictim`, abstracted over the per-way
timestamp reader. -/
def ScanFold (g : Nat → Nat) (w : Nat) : Nat × Nat :=
  (List.range w).foldl (fun acc way => if g way < acc.2 then (way, g way) else acc) (0, U64 - 1)

theorem getVictim_lru_eq (S W : Nat) (ts cnt : List Nat) (setIdx : Nat) :
    GetVictim (.lru S W ts cnt) setIdx = (ScanFold (fun j => ts.getD (setIdx * W + j) 0) W).1 :=
  rfl

theorem scanFold_succ (g : Nat → Nat) (w : Nat) :
    ScanFold g (w + 1) =
      (if g w < (ScanFold g w).2 then (w, g w) else ScanFold g w) := by
  unfold ScanFold
  rw [List.range_succ, List.foldl_append]
  rfl

theorem scanFold_spec (g : Nat → Nat) (w : Nat) (hw : 0 < w)
    (hb : ∀ j, j < w → g j < U64) :
    (ScanFold g w).1 < w ∧ (ScanFold g w).2 = g (ScanFold g w).1 ∧
      (∀ j, j < w → (ScanFold g w).2 ≤ g j) ∧
      (∀ j, j < w → g j = (ScanFold g w).2 → (ScanFold g w).1 ≤ j) := by
  induction w with
  | zero => omega
  | succ w ih =>
      rcases Nat.eq_zero_or_pos w with h0 | hpos
      · subst h0
        have hg0 : g 0 < U64 := hb 0 (by omega)
        have hU : 1 ≤ U64 := Nat.one_le_two_pow
        have hs1 : (ScanFold g 0).1 = 0 := rfl
        have hs2 : (ScanFold g 0).2 = U64 - 1 := rfl
        rw [scanFold_succ]
        by_cases hlt : g 0 < (ScanFold g 0).2
        · rw [if_pos hlt]
          refine ⟨by simp, rfl, ?_, ?_⟩
          · intro j hj; interval_cases j; simp
          · intro j hj _; simp
        · rw [if_neg hlt]
          rw [hs2] at hlt
          have hg : g 0 = U64 - 1 := by omega
          refine ⟨by omega, by rw [hs1, hs2, hg], ?_, ?_⟩
          · intro j hj; interval_cases j; rw [hs2]; omega
          · intro j hj _; rw [hs1]; omega
      · have hb' : ∀ j, j < w → g j < U64 := fun j hj => hb j (by omega)
        obtain ⟨h1, h2, h3, h4⟩ := ih hpos hb'
        rw [scanFold_succ]
        by_cases hlt : g w < (ScanFold g w).2
        · rw [if_pos hlt]
          refine ⟨by omega, rfl, ?_, ?_⟩
          · intro j hj
            rcases Nat.lt_succ_iff_lt_or_eq.mp hj with hj' | hj'
            · have := h3 j hj'; simp; omega
            · subst hj'; simp
          · intro j hj hje
            rcases Nat.lt_succ_iff_lt_or_eq.mp hj with hj' | hj'
            · have := h3 j hj'; simp at hje ⊢; omega
            · omega
        · rw [if_neg hlt]
          refine ⟨by omega, h2, ?_, ?_⟩
          · intro j hj
            rcases Nat.lt_succ_iff_lt_or_eq.mp hj with hj' | hj'
            · exact h3 j hj'
            · subst hj'; omega
          · intro j hj hje
            rcases Nat.lt_succ_iff_lt_or_eq.mp hj with hj' | hj'
            · exact h4 j hj' hje
            · subst hj'; omega

/-! ### Branch equations for `Load` and `Store` -/

theorem load_hit_eq {n : String} {S W B hl : Nat} {pk : PolicyKind} {next : Config}
    {lines : List (List Line)} {pol : PolState} {hs ms evc : Nat} {sn : StateH}
    {a w : Nat}
    (h : FindWay (lines.getD (SetIndexOf B S a) []) (TagOf B S a) = some w) :
    Load (.cache n S W B hl pk next) (.cache lines pol hs ms evc sn) a =
      (⟨n, hl⟩, .cache lines (OnHit pol (SetIndexOf B S a) w) (hs + 1) ms evc sn,
       [Ev.load n a]) := by
  simp only [Load]
  rw [h]

theorem load_miss_noevict {n : String} {S W B hl : Nat} {pk : PolicyKind} {next : Config}
    {lines : List (List Line)} {pol : PolState} {hs ms evc : Nat} {sn : StateH}
    {a : Nat} {r : AccessResult} {next1 : StateH} {ev1 : List Ev} {v : Nat}
    (h : FindWay (lines.getD (SetIndexOf B S a) []) (TagOf B S a) = none)
    (hL : Load next sn a = (r, next1, ev1))
    (hP : FillPlan S B (lines.getD (SetIndexOf B S a) []) pol (SetIndexOf B S a) (TagOf B S a)
      = (v, none)) :
    Load (.cache n S W B hl pk next) (.cache lines pol hs ms evc sn) a =
      (⟨r.hit_level, r.total_cycles + hl⟩,
       .cache (SetLines lines (SetIndexOf B S a) v (TagOf B S a))
         (OnFill pol (SetIndexOf B S a) v) hs (ms + 1) evc next1,
       Ev.load n a :: ev1) := by
  simp only [Load]
  rw [h, hL, hP]

theorem load_miss_evict {n : String} {S W B hl : Nat} {pk : PolicyKind} {next : Config}
    {lines : List (List Line)} {pol : PolState} {hs ms evc : Nat} {sn : StateH}
    {a : Nat} {r : AccessResult} {next1 : StateH} {ev1 : List Ev} {v ea : Nat}
    {rs : AccessResult} {next2 : StateH} {ev2 : List Ev}
    (h : FindWay (lines.getD (SetIndexOf B S a) []) (TagOf B S a) = none)
    (hL : Load next sn a = (r, next1, ev1))
    (hP : FillPlan S B (lines.getD (SetIndexOf B S a) []) pol (SetIndexOf B S a) (TagOf B S a)
      = (v, some ea))
    (hS : Store next next1 ea = (rs, next2, ev2)) :
    Load (.cache n S W B hl pk next) (.cache lines pol hs ms evc sn) a =
      (⟨r.hit_level, r.total_cycles + hl⟩,
       .cache (SetLines lines (SetIndexOf B S a) v (TagOf B S a))
         (OnFill pol (SetIndexOf B S a) v) hs (ms + 1) (evc + 1) next2,
       Ev.load n a :: (ev1 ++ ev2)) := by
  simp only [Load]
  rw [h, hL, hP]
  simp [hS]

theorem store_hit_eq {n : String} {S W B hl : Nat} {pk : PolicyKind} {next : Config}
    {lines : List (List Line)} {pol : PolState} {hs ms evc : Nat} {sn : StateH}
    {a w : Nat}
    (h : FindWay (lines.getD (SetIndexOf B S a) []) (TagOf B S a) = some w) :
    Store (.cache n S W B hl pk next) (.cache lines pol hs ms evc sn) a =
      (⟨n, hl⟩,
       .cache (MarkDirtyAt lines (SetIndexOf B S a) w)
         (OnHit pol (SetIndexOf B S a) w) (hs + 1) ms evc sn,
       [Ev.store n a]) := by
  simp only [Store]
  rw [h]

theorem store_miss_noevict {n : String} {S W B hl : Nat} {pk : PolicyKind} {next : Config}
    {lines : List (List Line)} {pol : PolState} {hs ms evc : Nat} {sn : StateH}
    {a : Nat} {r : AccessResult} {next1 : StateH} {ev1 : List Ev} {v : Nat}
    (h : FindWay (lines.getD (SetIndexOf B S a) []) (TagOf B S a) = none)
    (hL : Load next sn a = (r, next1, ev1))
    (hP : FillPlan S B (lines.getD (SetIndexOf B S a) []) pol (SetIndexOf B S a) (TagOf B S a)
      = (v, none)) :
    Store (.cache n S W B hl pk next) (.cache lines pol hs ms evc sn) a =
      (⟨r.hit_level, r.total_cycles + hl⟩,
       .cache (MarkDirty (SetLines lines (SetIndexOf B S a) v (TagOf B S a))
           (SetIndexOf B S a) (TagOf B S a))
         (OnFill pol (SetIndexOf B S a) v) hs (ms + 1) evc next1,
       Ev.store n a :: ev1) := by
  simp only [Store]
  rw [h, hL, hP]

theorem store_miss_evict {n : String} {S W B hl : Nat} {pk : PolicyKind} {next : Config}
    {lines : List (List Line)} {pol : PolState} {hs ms evc : Nat} {sn : StateH}
    {a : Nat} {r : AccessResult} {next1 : StateH} {ev1 : List Ev} {v ea : Nat}
    {rs : AccessResult} {next2 : StateH} {ev2 : List Ev}
    (h : FindWay (lines.getD (SetIndexOf B S a) []) (TagOf B S a) = none)
    (hL : Load next sn a = (r, next1, ev1))
    (hP : FillPlan S B (lines.getD (SetIndexOf B S a) []) pol (SetIndexOf B S a) (TagOf B S a)
      = (v, some ea))
    (hS : Store next next1 ea = (rs, next2, ev2)) :
    Store (.cache n S W B hl pk next) (.cache lines pol hs ms evc sn) a =
      (⟨r.hit_level, r.total_cycles + hl⟩,
       .cache (MarkDirty (SetLines lines (SetIndexOf B S a) v (TagOf B S a))
           (SetIndexOf B S a) (TagOf B S a))
         (OnFill pol (SetIndexOf B S a) v) hs (ms + 1) (evc + 1) next2,
       Ev.store n a :: (ev1 ++ ev2)) := by
  simp only [Store]
  rw [h, hL, hP]
  simp [hS]

/-- Every `Load` call's ghost event list starts with the receipt of that call
by the level it was issued to. -/
theorem load_ev_head (cfg : Config) (s : StateH) (a : Nat) :
    ∃ t, (Load cfg s a).2.2 = Ev.load (NameOf cfg) a :: t := by
  cases cfg with
  | mem n lat => exact ⟨[], rfl⟩
  | cache n S W B hl pk next =>
      cases s with
      | mem => exact ⟨[], rfl⟩
      | cache lines pol hs ms evc sn =>
          cases hF : FindWay (lines.getD (SetIndexOf B S a) []) (TagOf B S a) with
          | some w => rw [load_hit_eq hF]; exact ⟨[], rfl⟩
          | none =>
              rcases hL : Load next sn a with ⟨r, next1, ev1⟩
              rcases hP : FillPlan S B (lines.getD (SetIndexOf B S a) []) pol
                  (SetIndexOf B S a) (TagOf B S a) with ⟨v, req⟩
              cases req with
              | none => rw [load_miss_noevict hF hL hP]; exact ⟨ev1, rfl⟩
              | some ea =>
                  rcases hS : Store next next1 ea with ⟨rs, next2, ev2⟩
                  rw [load_miss_evict hF hL hP hS]
                  exact ⟨ev1 ++ ev2, rfl⟩

/-- Claim C5: for every access (Load or Store), the returned `total_cycles`
equals the satisfying level's latency plus the `hit_latency` of each level
above it that missed — each missed level adds exactly its own `hit_latency`,
so `total_cycles` is monotonically non-decreasing as the access travels
deeper — and the returned `hit_level` is the name of the level that
ultimately satisfied the request, unchanged by the levels above. -/
theorem claim_C5_latency_composition (cfg : Config) (s : StateH) (a : Nat) :
    (Load cfg s a).1 =
      ⟨(SatisfyingLevel cfg s a).1, (SatisfyingLevel cfg s a).2 + MissedLatencySum cfg s a⟩ ∧
    (Store cfg s a).1 =
      ⟨(SatisfyingLevel cfg s a).1, (SatisfyingLevel cfg s a).2 + MissedLatencySum cfg s a⟩ := by
  induction cfg generalizing s with
  | mem n lat =>
      cases s <;> simp [Load, Store, SatisfyingLevel, MissedLatencySum]
  | cache n S W B hl pk next ih =>
      cases s with
      | mem => simp [Load, Store, SatisfyingLevel, MissedLatencySum]
      | cache lines pol hs ms evc sn =>
          cases hF : FindWay (lines.getD (SetIndexOf B S a) []) (TagOf B S a) with
          | some w =>
              have hsat : SatisfyingLevel (.cache n S W B hl pk next)
                  (.cache lines pol hs ms evc sn) a = (n, hl) := by
                simp only [SatisfyingLevel]
                rw [hF]
              have hmp : MissedLatencySum (.cache n S W B hl pk next)
                  (.cache lines pol hs ms evc sn) a = 0 := by
                simp only [MissedLatencySum]
                rw [hF]
              rw [load_hit_eq hF, store_hit_eq hF, hsat, hmp]
              simp
          | none =>
              obtain ⟨ihL, _⟩ := ih sn
              have hsat : SatisfyingLevel (.cache n S W B hl pk next)
                  (.cache lines pol hs ms evc sn) a = SatisfyingLevel next sn a := by
                simp only [SatisfyingLevel]
                rw [hF]
              have hmp : MissedLatencySum (.cache n S W B hl pk next)
                  (.cache lines pol hs ms evc sn) a = hl + MissedLatencySum next sn a := by
                simp only [MissedLatencySum]
                rw [hF]
              rcases hL : Load next sn a with ⟨r, next1, ev1⟩
              rw [hL] at ihL
              simp only at ihL
              rcases hP : FillPlan S B (lines.getD (SetIndexOf B S a) []) pol
                  (SetIndexOf B S a) (TagOf B S a) with ⟨v, req⟩
              have hr1 : r.hit_level = (SatisfyingLevel next sn a).1 := by rw [ihL]
              have hr2 : r.total_cycles =
                  (SatisfyingLevel next sn a).2 + MissedLatencySum next sn a := by rw [ihL]
              cases req with
              | none =>
                  rw [load_miss_noevict hF hL hP, store_miss_noevict hF hL hP, hsat, hmp]
                  constructor <;> · simp only [AccessResult.mk.injEq]
                                    exact ⟨hr1, by rw [hr2]; omega⟩
              | some ea =>
                  rcases hS : Store next next1 ea with ⟨rs, next2, ev2⟩
                  rw [load_miss_evict hF hL hP hS, store_miss_evict hF hL hP hS, hsat, hmp]
                  constructor <;> · simp only [AccessResult.mk.injEq]
                                    exact ⟨hr1, by rw [hr2]; omega⟩

/-- Claim C6: for every set state, LRU `GetVictim` returns the way whose
timestamp is smallest in that set, and when several ways share the smallest
timestamp it returns the lowest such way index; consequently, in a level with
`ways = 2`, the sequence Load(A), Load(B), Load(A), Load(C) of distinct
blocks mapping to one set evicts B's line (tag 1), not A's (tag 0). -/
theorem claim_C6_lru_victim (S W : Nat) (ts cnt : List Nat) (setIdx : Nat)
    (hW : 0 < W)
    (hts : ∀ j, j < W → ts.getD (setIdx * W + j) 0 < U64) :
    (GetVictim (.lru S W ts cnt) setIdx < W ∧
     (∀ j, j < W →
        ts.getD (setIdx * W + GetVictim (.lru S W ts cnt) setIdx) 0 ≤
          ts.getD (setIdx * W + j) 0) ∧
     (∀ j, j < W →
        ts.getD (setIdx * W + j) 0 =
            ts.getD (setIdx * W + GetVictim (.lru S W ts cnt) setIdx) 0 →
          GetVictim (.lru S W ts cnt) setIdx ≤ j)) ∧
    LinesOf (RunOps (.cache "L1" 1 2 64 1 .lru (.mem "MainMemory" 100))
        (InitState (.cache "L1" 1 2 64 1 .lru (.mem "MainMemory" 100)))
        [(.kLoad, 0x0000), (.kLoad, 0x0040), (.kLoad, 0x0000), (.kLoad, 0x0080)]) =
      [[⟨true, false, 0⟩, ⟨true, false, 2⟩]] := by
  constructor
  · obtain ⟨h1, h2, h3, h4⟩ := scanFold_spec (fun j => ts.getD (setIdx * W + j) 0) W hW hts
    rw [getVictim_lru_eq]
    refine ⟨h1, ?_, ?_⟩
    · intro j hj
      have := h3 j hj
      rw [h2] at this
      exact this
    · intro j hj hje
      exact h4 j hj (by rw [hje, h2])
  · decide

/-- Claim C7: for the FIFO policy, `OnHit` never changes the per-set pointer,
`GetVictim` returns the current pointer value without mutating it (it is a
pure function of the state), and the pointer advances modulo `ways` only in
`OnFill`; consequently, in a level with `ways = 2`, the sequence Load(A),
Load(B), Load(A) (a hit, which leaves the policy state unchanged), Load(C)
in one set evicts A's line (tag 0), in insertion order unaffected by the
intervening hit. -/
theorem claim_C7_fifo_pointer (S W : Nat) (nv : List Nat) (setIdx i j : Nat) :
    OnHit (.fifo S W nv) i j = .fifo S W nv ∧
    GetVictim (.fifo S W nv) setIdx = nv.getD setIdx 0 ∧
    OnFill (.fifo S W nv) setIdx j =
      .fifo S W (nv.set setIdx ((nv.getD setIdx 0 + 1) % W)) ∧
    PolOf (RunOps (.cache "L1" 1 2 64 1 .fifo (.mem "MainMemory" 100))
        (InitState (.cache "L1" 1 2 64 1 .fifo (.mem "MainMemory" 100)))
        [(.kLoad, 0x0000), (.kLoad, 0x0040), (.kLoad, 0x0000)]) =
      PolOf (RunOps (.cache "L1" 1 2 64 1 .fifo (.mem "MainMemory" 100))
        (InitState (.cache "L1" 1 2 64 1 .fifo (.mem "MainMemory" 100)))
        [(.kLoad, 0x0000), (.kLoad, 0x0040)]) ∧
    LinesOf (RunOps (.cache "L1" 1 2 64 1 .fifo (.mem "MainMemory" 100))
        (InitState (.cache "L1" 1 2 64 1 .fifo (.mem "MainMemory" 100)))
        [(.kLoad, 0x0000), (.kLoad, 0x0040), (.kLoad, 0x0000), (.kLoad, 0x0080)]) =
      [[⟨true, false, 2⟩, ⟨true, false, 1⟩]] := by
  refine ⟨rfl, rfl, rfl, by decide, by decide⟩

/-- Witness for C6 at a concrete instance: in the set state with timestamps
`[5, 3]` the victim is a legal way and holds the minimum timestamp. -/
theorem claim_C6_lru_victim_witness :
    GetVictim (.lru 1 2 [5, 3] [2]) 0 < 2 ∧
    [5, 3].getD (0 * 2 + GetVictim (.lru 1 2 [5, 3] [2]) 0) 0 ≤ [5, 3].getD (0 * 2 + 1) 0 := by
  have h := claim_C6_lru_victim 1 2 [5, 3] [2] 0 (by decide) (by decide)
  exact ⟨h.1.1, h.1.2.1 1 (by decide)⟩

/-- Claim C3: for every Store whose address's tag is resident in a valid line
of its set at a level, that level marks the line dirty, calls
`policy.OnHit`, and returns `{this level's name, hit_latency}` without
invoking any operation on the next level: the state of every level below
(line arrays and policy state included) is unchanged by the store hit, and
the ghost event list records no call below this level. -/
theorem claim_C3_store_hit_frame {n : String} {S W B hl : Nat} {pk : PolicyKind}
    {next : Config} {lines : List (List Line)} {pol : PolState} {hs ms evc : Nat}
    {sn : StateH} {a w : Nat}
    (h : FindWay (lines.getD (SetIndexOf B S a) []) (TagOf B S a) = some w) :
    (Store (.cache n S W B hl pk next) (.cache lines pol hs ms evc sn) a).1 = ⟨n, hl⟩ ∧
    NextOf (Store (.cache n S W B hl pk next) (.cache lines pol hs ms evc sn) a).2.1 = sn ∧
    (Store (.cache n S W B hl pk next) (.cache lines pol hs ms evc sn) a).2.2 =
      [Ev.store n a] ∧
    LinesOf (Store (.cache n S W B hl pk next) (.cache lines pol hs ms evc sn) a).2.1 =
      lines.set (SetIndexOf B S a)
        ((lines.getD (SetIndexOf B S a) []).set w
          { (lines.getD (SetIndexOf B S a) []).getD w default with dirty := true }) ∧
    PolOf (Store (.cache n S W B hl pk next) (.cache lines pol hs ms evc sn) a).2.1 =
      OnHit pol (SetIndexOf B S a) w := by
  rw [store_hit_eq h]
  exact ⟨rfl, rfl, rfl, rfl, rfl⟩

/-- Witness for C3 at a concrete store hit. -/
theorem claim_C3_store_hit_frame_witness :
    (Store (.cache "L1" 1 1 64 1 .lru (.mem "MainMemory" 100))
        (.cache [[⟨true, false, 0⟩]] (.lru 1 1 [1] [1]) 0 0 0 .mem) 0).1 = ⟨"L1", 1⟩ ∧
    NextOf (Store (.cache "L1" 1 1 64 1 .lru (.mem "MainMemory" 100))
        (.cache [[⟨true, false, 0⟩]] (.lru 1 1 [1] [1]) 0 0 0 .mem) 0).2.1 = .mem ∧
    (Store (.cache "L1" 1 1 64 1 .lru (.mem "MainMemory" 100))
        (.cache [[⟨true, false, 0⟩]] (.lru 1 1 [1] [1]) 0 0 0 .mem) 0).2.2 =
      [Ev.store "L1" 0] ∧
    LinesOf (Store (.cache "L1" 1 1 64 1 .lru (.mem "MainMemory" 100))
        (.cache [[⟨true, false, 0⟩]] (.lru 1 1 [1] [1]) 0 0 0 .mem) 0).2.1 =
      ([[Line.mk true false 0]] : List (List Line)).set (SetIndexOf 64 1 0)
        ((([[Line.mk true false 0]] : List (List Line)).getD (SetIndexOf 64 1 0) []).set 0
          { (([[Line.mk true false 0]] : List (List Line)).getD (SetIndexOf 64 1 0) []).getD
              0 default with dirty := true }) ∧
    PolOf (Store (.cache "L1" 1 1 64 1 .lru (.mem "MainMemory" 100))
        (.cache [[⟨true, false, 0⟩]] (.lru 1 1 [1] [1]) 0 0 0 .mem) 0).2.1 =
      OnHit (.lru 1 1 [1] [1]) (SetIndexOf 64 1 0) 0 :=
  @claim_C3_store_hit_frame "L1" 1 1 64 1 .lru (.mem "MainMemory" 100)
    [[Line.mk true false 0]] (.lru 1 1 [1] [1]) 0 0 0 .mem 0 0 (by decide)

/-! ### Fill support lemmas -/

theorem fillPlan_fst (S B : Nat) (set : List Line) (pol : PolState) (si tg : Nat) :
    (FillPlan S B set pol si tg).1 =
      match FirstInvalid set with
      | some w => w
      | none => GetVictim pol si := by
  unfold FillPlan
  cases FirstInvalid set with
  | some w => rfl
  | none => simp only; split <;> rfl

theorem fillPlan_fst_lt {S W : Nat} (B si tg : Nat) {set : List Line} {pol : PolState}
    {pk : PolicyKind} (hlen : set.length = W) (hW : 0 < W)
    (hpol : PolWFb pk pol S W = true) :
    (FillPlan S B set pol si tg).1 < W := by
  rw [fillPlan_fst]
  cases hfi : FirstInvalid set with
  | some w => exact hlen ▸ firstInvalid_some hfi
  | none =>
      cases pol with
      | lru ps pw ts cnt =>
          cases pk with
          | fifo => simp [PolWFb] at hpol
          | lru =>
              simp only [PolWFb, Bool.and_eq_true, beq_iff_eq] at hpol
              obtain ⟨⟨⟨⟨⟨hps, hpw⟩, hts⟩, hcnt⟩, htsb⟩, hcntb⟩ := hpol
              rw [getVictim_lru_eq, hpw]
              have hb : ∀ j, j < W → ts.getD (si * W + j) 0 < U64 := by
                intro j hj
                rw [List.getD_eq_getElem?_getD]
                cases hx : ts[si * W + j]? with
                | none =>
                    have : (0 : Nat) < U64 := by unfold U64; positivity
                    simpa using this
                | some x =>
                    have hmem := List.getElem?_mem hx
                    have := (List.all_eq_true.mp htsb) x hmem
                    simpa using this
              exact (scanFold_spec _ W hW hb).1
      | fifo ps pw nv =>
          cases pk with
          | lru => simp [PolWFb] at hpol
          | fifo =>
              simp only [PolWFb, Bool.and_eq_true, beq_iff_eq] at hpol
              obtain ⟨⟨⟨hps, hpw⟩, hnv⟩, hnvb⟩ := hpol
              have hall : ∀ x ∈ nv, x < W := by
                intro x hx
                have := (List.all_eq_true.mp hnvb) x hx
                simpa using this
              exact getD_lt_of_all _ hall hW

theorem setLines_getD (lines : List (List Line)) (si v tg : Nat)
    (hsi : si < lines.length) :
    (SetLines lines si v tg).getD si [] = (lines.getD si []).set v ⟨true, false, tg⟩ := by
  unfold SetLines
  rw [getD_set_self _ _ _ _ hsi]

theorem markDirty_spec (lines : List (List Line)) (si tg : Nat)
    (hsi : si < lines.length)
    (j : Nat) (hj : j < (lines.getD si []).length)
    (hv : ((lines.getD si []).getD j default).valid = true)
    (ht : ((lines.getD si []).getD j default).tag = tg) :
    ∃ w, w < (lines.getD si []).length ∧
      ((MarkDirty lines si tg).getD si []).getD w default = ⟨true, true, tg⟩ := by
  obtain ⟨w, hw⟩ := findWay_isSome j hj hv ht
  obtain ⟨hwlen, hwv, hwt⟩ := findWay_some hw
  refine ⟨w, hwlen, ?_⟩
  unfold MarkDirty
  rw [hw]
  unfold MarkDirtyAt
  rw [getD_set_self _ _ _ _ hsi, getD_set_self _ _ _ _ hwlen]
  cases hline : (lines.getD si []).getD w default with
  | mk lv ld lt =>
      rw [hline] at hwv hwt
      simp only at hwv hwt
      subst hwv
      subst hwt
      rfl

theorem wfb_parts {n : String} {S W B hl : Nat} {pk : PolicyKind} {next : Config}
    {lines : List (List Line)} {pol : PolState} {hs ms evc : Nat} {sn : StateH}
    (h : WFb (.cache n S W B hl pk next) (.cache lines pol hs ms evc sn) = true) :
    lines.length = S ∧ (∀ set ∈ lines, set.length = W) ∧
      PolWFb pk pol S W = true ∧ WFb next sn = true := by
  simp only [WFb, Bool.and_eq_true, beq_iff_eq, List.all_eq_true] at h
  obtain ⟨⟨⟨h1, h2⟩, h3⟩, h4⟩ := h
  exact ⟨h1, fun set hset => by simpa using h2 set hset, h3, h4⟩

/-- Claim C4: for every Store that misses at a level, the level delegates
`Load` (not `Store`) to the next level — the first call received below is a
`Load` of the same address, and the result is the next level's `Load` result —
adds its own `hit_latency` to the returned `total_cycles`, fills the block
into the set, and when the Store returns, the line of that set holding the
requested tag is valid and dirty. -/
theorem claim_C4_store_miss {n : String} {S W B hl : Nat} {pk : PolicyKind}
    {next : Config} {lines : List (List Line)} {pol : PolState} {hs ms evc : Nat}
    {sn : StateH} {a : Nat}
    (hS : 0 < S) (hW : 0 < W)
    (hwf : WFb (.cache n S W B hl pk next) (.cache lines pol hs ms evc sn) = true)
    (hmiss : FindWay (lines.getD (SetIndexOf B S a) []) (TagOf B S a) = none) :
    (Store (.cache n S W B hl pk next) (.cache lines pol hs ms evc sn) a).1 =
      ⟨(Load next sn a).1.hit_level, (Load next sn a).1.total_cycles + hl⟩ ∧
    (∃ evs, (Store (.cache n S W B hl pk next) (.cache lines pol hs ms evc sn) a).2.2 =
      Ev.store n a :: Ev.load (NameOf next) a :: evs) ∧
    (∃ w, w < W ∧
      ((LinesOf (Store (.cache n S W B hl pk next)
            (.cache lines pol hs ms evc sn) a).2.1).getD (SetIndexOf B S a) []).getD
          w default = ⟨true, true, TagOf B S a⟩) := by
  obtain ⟨hlenS, hlenW, hpol, _⟩ := wfb_parts hwf
  have hsi : SetIndexOf B S a < lines.length := by
    rw [hlenS]
    exact Nat.mod_lt _ hS
  have hsetlen : (lines.getD (SetIndexOf B S a) []).length = W :=
    hlenW _ (getD_mem _ _ _ hsi)
  rcases hL : Load next sn a with ⟨r, next1, ev1⟩
  rcases hP : FillPlan S B (lines.getD (SetIndexOf B S a) []) pol
      (SetIndexOf B S a) (TagOf B S a) with ⟨v, req⟩
  have hvlt : v < W := by
    have h0 := fillPlan_fst_lt B (SetIndexOf B S a) (TagOf B S a) hsetlen hW hpol
    rw [hP] at h0
    exact h0
  obtain ⟨tl, htl⟩ := load_ev_head next sn a
  rw [hL] at htl
  simp only at htl
  -- facts about the filled line grid, shared by both fill outcomes
  have hsi2 : SetIndexOf B S a < (SetLines lines (SetIndexOf B S a) v (TagOf B S a)).length := by
    unfold SetLines
    rw [List.length_set]
    exact hsi
  have hgd : (SetLines lines (SetIndexOf B S a) v (TagOf B S a)).getD (SetIndexOf B S a) [] =
      (lines.getD (SetIndexOf B S a) []).set v ⟨true, false, TagOf B S a⟩ :=
    setLines_getD lines _ v _ hsi
  have hvlen : v < ((SetLines lines (SetIndexOf B S a) v (TagOf B S a)).getD
      (SetIndexOf B S a) []).length := by
    rw [hgd, List.length_set, hsetlen]
    exact hvlt
  have hvline : (((SetLines lines (SetIndexOf B S a) v (TagOf B S a)).getD
      (SetIndexOf B S a) []).getD v default) = ⟨true, false, TagOf B S a⟩ := by
    rw [hgd]
    exact getD_set_self _ _ _ _ (by rw [hsetlen]; exact hvlt)
  have hmark := markDirty_spec (SetLines lines (SetIndexOf B S a) v (TagOf B S a))
      (SetIndexOf B S a) (TagOf B S a) hsi2 v hvlen
      (by rw [hvline]) (by rw [hvline])
  obtain ⟨w, hwlt, hwline⟩ := hmark
  have hwlt' : w < W := by
    rw [hgd, List.length_set, hsetlen] at hwlt
    exact hwlt
  cases req with
  | none =>
      rw [store_miss_noevict hmiss hL hP]
      refine ⟨rfl, ⟨tl, ?_⟩, ⟨w, hwlt', ?_⟩⟩
      · rw [htl]
      · simpa using hwline
  | some ea =>
      rcases hSt : Store next next1 ea with ⟨rs, next2, ev2⟩
      rw [store_miss_evict hmiss hL hP hSt]
      refine ⟨rfl, ⟨tl ++ ev2, ?_⟩, ⟨w, hwlt', ?_⟩⟩
      · rw [htl]
        rfl
      · simpa using hwline

/-- Witness for C4 at a concrete store miss on a fresh one-way level. -/
theorem claim_C4_store_miss_witness :
    (Store (.cache "L1" 1 1 64 1 .lru (.mem "MainMemory" 100))
        (.cache [[⟨false, false, 0⟩]] (.lru 1 1 [0] [0]) 0 0 0 .mem) 0).1 =
      ⟨(Load (.mem "MainMemory" 100) .mem 0).1.hit_level,
       (Load (.mem "MainMemory" 100) .mem 0).1.total_cycles + 1⟩ ∧
    (∃ evs, (Store (.cache "L1" 1 1 64 1 .lru (.mem "MainMemory" 100))
        (.cache [[⟨false, false, 0⟩]] (.lru 1 1 [0] [0]) 0 0 0 .mem) 0).2.2 =
      Ev.store "L1" 0 :: Ev.load (NameOf (.mem "MainMemory" 100)) 0 :: evs) ∧
    (∃ w, w < 1 ∧
      ((LinesOf (Store (.cache "L1" 1 1 64 1 .lru (.mem "MainMemory" 100))
            (.cache [[⟨false, false, 0⟩]] (.lru 1 1 [0] [0]) 0 0 0 .mem) 0).2.1).getD
          (SetIndexOf 64 1 0) []).getD w default = ⟨true, true, TagOf 64 1 0⟩) :=
  @claim_C4_store_miss "L1" 1 1 64 1 .lru (.mem "MainMemory" 100)
    [[⟨false, false, 0⟩]] (.lru 1 1 [0] [0]) 0 0 0 .mem 0
    (by decide) (by decide) (by decide) (by decide)

/-! ### Tag-uniqueness invariant -/

theorem getD_set_ite {α : Type} (l : List α) (wi q : Nat) (x d : α) (hwi : wi < l.length) :
    (l.set wi x).getD q d = if q = wi then x else l.getD q d := by
  by_cases h : q = wi
  · subst h
    rw [getD_set_self _ _ _ _ hwi, if_pos rfl]
  · rw [getD_set_ne _ _ _ _ _ (Ne.symm h), if_neg h]

theorem uniqSet_getD {lines : List (List Line)} (h : ∀ set ∈ lines, UniqSet set)
    (si : Nat) : UniqSet (lines.getD si []) := by
  rcases Nat.lt_or_ge si lines.length with hl | hl
  · exact h _ (getD_mem _ _ _ hl)
  · rw [List.getD_eq_getElem?_getD, List.getElem?_eq_none hl]
    intro i j hi hj
    simp at hi

theorem uniqSet_set_same (set : List Line) (w : Nat) (new : Line)
    (hv : new.valid = (set.getD w default).valid)
    (ht : new.tag = (set.getD w default).tag)
    (hu : UniqSet set) : UniqSet (set.set w new) := by
  rcases Nat.lt_or_ge w set.length with hw | hw
  · intro i j hi hj hne hvi hvj
    rw [List.length_set] at hi hj
    rw [getD_set_ite _ _ _ _ _ hw] at hvi ⊢
    rw [getD_set_ite _ _ _ _ _ hw] at hvj ⊢
    by_cases hiw : i = w <;> by_cases hjw : j = w
    · exact absurd (hiw.trans hjw.symm) hne
    · subst hiw
      simp only [if_pos rfl, if_true] at hvi ⊢
      simp only [if_neg hjw] at hvj ⊢
      rw [ht]
      exact hu i j hw hj hne (hv ▸ hvi) hvj
    · subst hjw
      simp only [if_neg hiw] at hvi ⊢
      simp only [if_pos rfl, if_true] at hvj ⊢
      rw [ht]
      exact hu i j hi hw hne hvi (hv ▸ hvj)
    · simp only [if_neg hiw] at hvi ⊢
      simp only [if_neg hjw] at hvj ⊢
      exact hu i j hi hj hne hvi hvj
  · rw [List.set_eq_of_length_le hw]
    exact hu

theorem uniqSet_fill (set : List Line) (tg v : Nat)
    (hmiss : FindWay set tg = none) (hu : UniqSet set) :
    UniqSet (set.set v ⟨true, false, tg⟩) := by
  rcases Nat.lt_or_ge v set.length with hvl | hvl
  · intro i j hi hj hne hvi hvj
    rw [List.length_set] at hi hj
    rw [getD_set_ite _ _ _ _ _ hvl] at hvi ⊢
    rw [getD_set_ite _ _ _ _ _ hvl] at hvj ⊢
    by_cases hiw : i = v <;> by_cases hjw : j = v
    · exact absurd (hiw.trans hjw.symm) hne
    · subst hiw
      simp only [if_pos rfl, if_true] at hvi ⊢
      simp only [if_neg hjw] at hvj ⊢
      intro heq
      exact (findWay_none hmiss j hj) ⟨hvj, heq.symm⟩
    · subst hjw
      simp only [if_neg hiw] at hvi ⊢
      simp only [if_pos rfl, if_true] at hvj ⊢
      intro heq
      exact (findWay_none hmiss i hi) ⟨hvi, heq⟩
    · simp only [if_neg hiw] at hvi ⊢
      simp only [if_neg hjw] at hvj ⊢
      exact hu i j hi hj hne hvi hvj
  · rw [List.set_eq_of_length_le hvl]
    exact hu

theorem invLines_set {lines : List (List Line)} {si : Nat} {set2 : List Line}
    (h : ∀ set ∈ lines, UniqSet set) (h2 : UniqSet set2) :
    ∀ set ∈ lines.set si set2, UniqSet set := by
  intro set hset
  rcases List.mem_or_eq_of_mem_set hset with hmem | heq
  · exact h set hmem
  · rw [heq]
    exact h2

theorem invLines_markDirtyAt (lines : List (List Line)) (si w : Nat)
    (h : ∀ set ∈ lines, UniqSet set) :
    ∀ set ∈ MarkDirtyAt lines si w, UniqSet set := by
  unfold MarkDirtyAt
  exact invLines_set h (uniqSet_set_same _ _ _ rfl rfl (uniqSet_getD h si))

theorem invLines_markDirty (lines : List (List Line)) (si tg : Nat)
    (h : ∀ set ∈ lines, UniqSet set) :
    ∀ set ∈ MarkDirty lines si tg, UniqSet set := by
  unfold MarkDirty
  cases FindWay (lines.getD si []) tg with
  | none => exact h
  | some w => exact invLines_markDirtyAt _ _ _ h

/-- Both `Load` and `Store` preserve the per-set tag-uniqueness invariant at
every level, for any state that satisfies it. -/
theorem inv_load_store (cfg : Config) : ∀ (s : StateH) (a : Nat), Inv s →
    Inv (Load cfg s a).2.1 ∧ Inv (Store cfg s a).2.1 := by
  induction cfg with
  | mem n lat => intro s a hs; exact ⟨hs, hs⟩
  | cache n S W B hl pk next ih =>
      intro s a hs
      cases s with
      | mem => exact ⟨hs, hs⟩
      | cache lines pol hsc ms evc sn =>
          obtain ⟨hlines, hsn⟩ := hs
          cases hF : FindWay (lines.getD (SetIndexOf B S a) []) (TagOf B S a) with
          | some w =>
              rw [load_hit_eq hF, store_hit_eq hF]
              exact ⟨⟨hlines, hsn⟩, ⟨invLines_markDirtyAt _ _ _ hlines, hsn⟩⟩
          | none =>
              rcases hL : Load next sn a with ⟨r, next1, ev1⟩
              have hnext1 : Inv next1 := by
                have h0 := (ih sn a hsn).1
                rw [hL] at h0
                exact h0
              rcases hP : FillPlan S B (lines.getD (SetIndexOf B S a) []) pol
                  (SetIndexOf B S a) (TagOf B S a) with ⟨v, req⟩
              have hfillInv : ∀ set ∈ SetLines lines (SetIndexOf B S a) v (TagOf B S a),
                  UniqSet set := by
                unfold SetLines
                exact invLines_set hlines (uniqSet_fill _ _ _ hF (uniqSet_getD hlines _))
              have hmdInv := invLines_markDirty
                (SetLines lines (SetIndexOf B S a) v (TagOf B S a))
                (SetIndexOf B S a) (TagOf B S a) hfillInv
              cases req with
              | none =>
                  rw [load_miss_noevict hF hL hP, store_miss_noevict hF hL hP]
                  exact ⟨⟨hfillInv, hnext1⟩, ⟨hmdInv, hnext1⟩⟩
              | some ea =>
                  rcases hSt : Store next next1 ea with ⟨rs, next2, ev2⟩
                  have hnext2 : Inv next2 := by
                    have h0 := (ih next1 ea hnext1).2
                    rw [hSt] at h0
                    exact h0
                  rw [load_miss_evict hF hL hP hSt, store_miss_evict hF hL hP hSt]
                  exact ⟨⟨hfillInv, hnext2⟩, ⟨hmdInv, hnext2⟩⟩

/-- A freshly constructed hierarchy satisfies the invariant: all lines start
invalid. -/
theorem inv_init (cfg : Config) : Inv (InitState cfg) := by
  induction cfg with
  | mem n lat => trivial
  | cache n S W B hl pk next ih =>
      refine ⟨?_, ih⟩
      intro set hset
      rw [List.eq_of_mem_replicate hset]
      intro i j hi hj hne hvi hvj
      rw [List.length_replicate] at hi
      rw [getD_replicate _ _ _ _ hi] at hvi
      simp at hvi

theorem inv_run (cfg : Config) (ops : List (AccessType × Nat)) :
    ∀ s, Inv s → Inv (RunOps cfg s ops) := by
  induction ops with
  | nil => intro s hs; exact hs
  | cons op rest ih =>
      intro s hs
      rcases op with ⟨t, a⟩
      cases t with
      | kLoad => exact ih _ (inv_load_store cfg s a hs).1
      | kStore => exact ih _ (inv_load_store cfg s a hs).2

/-- Claim C8: in every state reachable by any finite sequence of Load and
Store operations from a freshly constructed hierarchy, within each set of
each cache level at most one valid line holds any given tag; moreover every
Load and Store (each of which performs at most one `Fill`) preserves this
invariant from any state satisfying it. -/
theorem claim_C8_tag_uniqueness (cfg : Config) (ops : List (AccessType × Nat))
    (s : StateH) (a : Nat) (hInv : Inv s) :
    Inv (RunOps cfg (InitState cfg) ops) ∧
    Inv (Load cfg s a).2.1 ∧ Inv (Store cfg s a).2.1 :=
  ⟨inv_run cfg ops _ (inv_init cfg),
   (inv_load_store cfg s a hInv).1, (inv_load_store cfg s a hInv).2⟩

/-- Witness for C8 at a concrete hierarchy, trace and state. -/
theorem claim_C8_tag_uniqueness_witness :
    Inv (RunOps (.cache "L1" 1 2 64 1 .lru (.mem "MainMemory" 100))
      (InitState (.cache "L1" 1 2 64 1 .lru (.mem "MainMemory" 100)))
      [(AccessType.kLoad, 0), (AccessType.kStore, 64)]) ∧
    Inv (Load (.cache "L1" 1 2 64 1 .lru (.mem "MainMemory" 100))
      (InitState (.cache "L1" 1 2 64 1 .lru (.mem "MainMemory" 100))) 0).2.1 ∧
    Inv (Store (.cache "L1" 1 2 64 1 .lru (.mem "MainMemory" 100))
      (InitState (.cache "L1" 1 2 64 1 .lru (.mem "MainMemory" 100))) 0).2.1 :=
  claim_C8_tag_uniqueness (.cache "L1" 1 2 64 1 .lru (.mem "MainMemory" 100))
    [(AccessType.kLoad, 0), (AccessType.kStore, 64)]
    (InitState (.cache "L1" 1 2 64 1 .lru (.mem "MainMemory" 100))) 0
    ((claim_C8_tag_uniqueness (.cache "L1" 1 2 64 1 .lru (.mem "MainMemory" 100))
      [] StateH.mem 0 True.intro).1)

/-! ### Aggregation of an access with an unknown hit level (C1) -/

theorem walkLevels_notfound (res : AccessResult) :
    ∀ (hier : List String) (db : String → CacheStats), res.hit_level ∉ hier →
      (WalkLevels res hier db).2 = false ∧
      ∀ nm, ((WalkLevels res hier db).1 nm).hits = (db nm).hits ∧
        ((WalkLevels res hier db).1 nm).total_latency = (db nm).total_latency ∧
        ((WalkLevels res hier db).1 nm).misses = (db nm).misses + hier.count nm := by
  intro hier
  induction hier with
  | nil =>
      intro db h
      exact ⟨rfl, fun nm => ⟨rfl, rfl, by simp [WalkLevels]⟩⟩
  | cons name rest ih =>
      intro db h
      have hne : name ≠ res.hit_level := by
        intro heq
        exact h (heq ▸ List.mem_cons_self name rest)
      have h' : res.hit_level ∉ rest := fun hm => h (List.mem_cons_of_mem _ hm)
      rw [WalkLevels, if_neg hne]
      obtain ⟨h1, h2⟩ := ih
        (UpdateDb db name (fun st => ⟨st.hits, st.misses + 1, st.total_latency⟩)) h'
      refine ⟨h1, fun nm => ?_⟩
      obtain ⟨e1, e2, e3⟩ := h2 nm
      rw [e1, e2, e3]
      refine ⟨?_, ?_, ?_⟩
      · by_cases hnm : nm = name <;> simp [UpdateDb, hnm]
      · by_cases hnm : nm = name <;> simp [UpdateDb, hnm]
      · by_cases hnm : nm = name
        · subst hnm
          simp [UpdateDb, List.count_cons]
          omega
        · simp [UpdateDb, hnm, List.count_cons, Ne.symm hnm]

/-- Counterexample for C1: an access whose `hit_level` is absent from the
hierarchy list is reported as a diagnostic and kept out of every hit counter
and latency accumulator, but — contrary to the claim — it is counted into the
miss counter of every level the walk traverses. -/
theorem claim_C1_counterexample :
    (Aggregate ["L1", "L2", "MainMemory"] [⟨"Bogus", 7⟩]).2 = 1 ∧
    ((Aggregate ["L1", "L2", "MainMemory"] [⟨"Bogus", 7⟩]).1 "L1").hits = 0 ∧
    ((Aggregate ["L1", "L2", "MainMemory"] [⟨"Bogus", 7⟩]).1 "L1").total_latency = 0 ∧
    ((Aggregate ["L1", "L2", "MainMemory"] [⟨"Bogus", 7⟩]).1 "L1").misses = 1 ∧
    ((Aggregate ["L1", "L2", "MainMemory"] [⟨"Bogus", 7⟩]).1 "L2").misses = 1 ∧
    ((Aggregate ["L1", "L2", "MainMemory"] [⟨"Bogus", 7⟩]).1 "MainMemory").misses = 1 := by
  decide

/-- Claim C1 as amended: for every recorded access whose `hit_level` does not
appear in the supplied ordered hierarchy name list, the aggregation loop
reports a diagnostic (the error counter increments), the access contributes
to no level's hit counter and no level's latency accumulator, but each
occurrence of a level name in the hierarchy list receives one miss from the
offending access. -/
theorem claim_C1_amended (hier : List String) (db : String → CacheStats) (errs : Nat)
    (res : AccessResult) (h : res.hit_level ∉ hier) :
    (AggStep hier (db, errs) res).2 = errs + 1 ∧
    ∀ nm, ((AggStep hier (db, errs) res).1 nm).hits = (db nm).hits ∧
      ((AggStep hier (db, errs) res).1 nm).total_latency = (db nm).total_latency ∧
      ((AggStep hier (db, errs) res).1 nm).misses = (db nm).misses + hier.count nm := by
  obtain ⟨h1, h2⟩ := walkLevels_notfound res hier db h
  constructor
  · unfold AggStep
    rw [h1]
    simp
  · intro nm
    unfold AggStep
    exact h2 nm

/-- Witness for the amended C1 at a concrete unknown hit level. -/
theorem claim_C1_amended_witness :
    (AggStep ["L1"] (fun _ => EmptyStats, 0) ⟨"X1", 3⟩).2 = 1 ∧
    ((AggStep ["L1"] (fun _ => EmptyStats, 0) ⟨"X1", 3⟩).1 "L1").misses = 1 := by
  have h := claim_C1_amended ["L1"] (fun _ => EmptyStats) 0 ⟨"X1", 3⟩ (by decide)
  refine ⟨h.1, ?_⟩
  have h2 := (h.2 "L1").2.2
  simpa using h2

/-! ### Address reconstruction (C2) -/

/-- Counterexample for C2: for the non-block-aligned address `0x1001`
(`block_size = 64`, `sets = 4`) the reverse mapping returns the block base
`0x1000`, not the original address; behaviourally, storing to `0x1001` in a
one-line cache and evicting the dirty line issues the write-back at `0x1000`
(one `Store` received by `MainMemory`), not at `0x1001`. -/
theorem claim_C2_counterexample :
    EvictAddr 4 64 (TagOf 64 4 0x1001) (SetIndexOf 64 4 0x1001) = 0x1000 ∧
    (0x1000 : Nat) ≠ 0x1001 ∧
    (Load (.cache "L1" 1 1 64 1 .lru (.mem "MainMemory" 100))
        ((Store (.cache "L1" 1 1 64 1 .lru (.mem "MainMemory" 100))
          (InitState (.cache "L1" 1 1 64 1 .lru (.mem "MainMemory" 100))) 0x1001).2.1)
        0x2000).2.2 =
      [Ev.load "L1" 0x2000, Ev.load "MainMemory" 0x2000, Ev.store "MainMemory" 0x1000] := by
  decide

/-- Claim C2 as amended: for every 64-bit address, the reverse mapping
`(tag * sets + set_index) * block_size` applied to the decomposition yields
the block-aligned base `(address / block_size) * block_size`, hence exactly
the original address whenever `block_size` divides it; consequently, when the
dirty valid line filled by a (block-aligned) Store is evicted, exactly one
Store is issued to the next level and its address equals the address that was
originally stored. -/
theorem claim_C2_amended (a B S : Nat) :
    (EvictAddr S B (TagOf B S a) (SetIndexOf B S a) = a / B * B ∧
     (B ∣ a → EvictAddr S B (TagOf B S a) (SetIndexOf B S a) = a)) ∧
    (Load (.cache "L1" 1 1 64 1 .lru (.mem "MainMemory" 100))
        ((Store (.cache "L1" 1 1 64 1 .lru (.mem "MainMemory" 100))
          (InitState (.cache "L1" 1 1 64 1 .lru (.mem "MainMemory" 100))) 0x1040).2.1)
        0x2000).2.2 =
      [Ev.load "L1" 0x2000, Ev.load "MainMemory" 0x2000, Ev.store "MainMemory" 0x1040] := by
  have hbase : EvictAddr S B (TagOf B S a) (SetIndexOf B S a) = a / B * B := by
    unfold EvictAddr TagOf SetIndexOf
    have h2 : a / B / S * S + a / B % S = a / B := by
      rw [Nat.mul_comm]
      exact Nat.div_add_mod (a / B) S
    rw [h2]
  refine ⟨⟨hbase, fun hdvd => ?_⟩, by decide⟩
  rw [hbase, Nat.div_mul_cancel hdvd]

/-- Witness for the amended C2 at a concrete block-aligned address. -/
theorem claim_C2_amended_witness :
    EvictAddr 4 64 (TagOf 64 4 0x1040) (SetIndexOf 64 4 0x1040) = 0x1040 :=
  (claim_C2_amended 0x1040 64 4).1.2 (by decide)

/-! ### Trace-line parsing (C10) -/

theorem dropWhile_append_all {α : Type} {p : α → Bool} {w l : List α}
    (h : ∀ c ∈ w, p c = true) : (w ++ l).dropWhile p = l.dropWhile p := by
  induction w with
  | nil => rfl
  | cons c cs ih =>
      rw [List.cons_append, List.dropWhile_cons, if_pos (h c (by simp))]
      exact ih (fun x hx => h x (by simp [hx]))

theorem dropWhile_eq_nil_of_all {α : Type} {p : α → Bool} {l : List α}
    (h : ∀ c ∈ l, p c = true) : l.dropWhile p = [] := by
  induction l with
  | nil => rfl
  | cons c cs ih =>
      rw [List.dropWhile_cons, if_pos (h c (by simp))]
      exact ih (fun x hx => h x (by simp [hx]))

/-- `ss >> type >> addr_str` on a line holding exactly one non-whitespace
character: `type` extraction consumes that character and the `addr_str`
extraction fails, so `ParseTraceFile` hits the silent `continue` — no
diagnostic is printed. -/
theorem parseLine_one_token (w1 : List Char) (t : Char) (w2 : List Char)
    (hw1 : ∀ c ∈ w1, IsWs c = true) (hwt : IsWs t = false) (htH : t ≠ '#')
    (hw2 : ∀ c ∈ w2, IsWs c = true) :
    ParseLine (w1 ++ t :: w2) = LineOutcome.skippedSilent := by
  have hcond : ¬((w1 ++ t :: w2).isEmpty = true ∨ (w1 ++ t :: w2).head? = some '#') := by
    intro hc
    rcases hc with hc | hc
    · simp at hc
    · cases w1 with
      | nil =>
          simp at hc
          exact htH hc
      | cons c cs =>
          simp at hc
          have hcw := hw1 c (by simp)
          rw [hc] at hcw
          exact absurd hcw (by decide)
  have h1 : (t :: w2).dropWhile IsWs = t :: w2 := by
    rw [List.dropWhile_cons, hwt]
    simp
  have h2 : w2.dropWhile IsWs = [] := dropWhile_eq_nil_of_all hw2
  unfold ParseLine
  rw [if_neg hcond, dropWhile_append_all hw1, h1]
  simp only [h2]
  rfl

/-- `ss >> type >> addr_str` on a line whose first non-whitespace character
`t` is followed (after optional whitespace, possibly none — `ss >> type`
consumes only the single character `t`) by a token `tok`: the pushed
operation, or the `stoull` failure, is decided by `Stoull16 tok`. -/
theorem parseLine_op_token (t : Char) (sep tok : List Char) (hwt : IsWs t = false)
    (htH : t ≠ '#') (htne : tok ≠ []) (hsep : ∀ c ∈ sep, IsWs c = true)
    (hall : ∀ c ∈ tok, IsWs c = false) :
    ParseLine (t :: (sep ++ tok)) =
      (match Stoull16 tok with
       | none => LineOutcome.skippedDiag
       | some v => LineOutcome.parsedOp ⟨t, v⟩) := by
  have hcond : ¬((t :: (sep ++ tok)).isEmpty = true ∨
      (t :: (sep ++ tok)).head? = some '#') := by
    intro hc
    rcases hc with hc | hc
    · simp at hc
    · simp at hc
      exact htH hc
  cases tok with
  | nil => exact absurd rfl htne
  | cons c cs =>
      have h1 : (t :: (sep ++ c :: cs)).dropWhile IsWs = t :: (sep ++ c :: cs) := by
        rw [List.dropWhile_cons, hwt]
        simp
      have h2 : (sep ++ c :: cs).dropWhile IsWs = c :: cs := by
        rw [dropWhile_append_all hsep]
        exact dropWhile_eq_self_of hall
      have h3 : (c :: cs).takeWhile (fun x => !IsWs x) = c :: cs :=
        takeWhile_eq_self_of (fun x hx => by rw [hall x hx]; rfl)
      unfold ParseLine
      rw [if_neg hcond, h1]
      simp only [h2, h3]

/-- Counterexample for C10: the line `"X 10"` does not match the grammar
(`X` is not in `{L, S}`), yet it is not skipped: it contributes an operation,
which the simulation dispatches as a Store; and the one-token line `"L"`,
which also fails the grammar, is skipped silently (stream extraction failure),
not with a diagnostic. -/
theorem claim_C10_counterexample :
    ParseLine ['X', ' ', '1', '0'] = .parsedOp ⟨'X', 16⟩ ∧
    ParseTraceLines [['X', ' ', '1', '0']] = [⟨'X', 16⟩] ∧
    DispatchType ⟨'X', 16⟩ = AccessType.kStore ∧
    ParseLine ['L'] = .skippedSilent := by
  decide

/-- Claim C10 as amended: empty lines and lines whose first character is `#`
are ignored.  A line containing at most one non-whitespace character — the
only way the `ss >> type >> addr_str` extraction can fail, since the op
extraction consumes a single character — is skipped silently, without a
diagnostic.  Otherwise the first non-whitespace character is taken as the op
character, even when it is not separated from the address by whitespace
(`"L1"` parses as op `L` with address `1`), and the following token as the
address string; when that token has no parsable hexadecimal value (as in
`"Lx"`) the line is skipped with a diagnostic.  Lines that contribute no
operation leave the rest of the parse unchanged — the run is not aborted.
The op character is never validated against `{L, S}`: any parsed line
contributes exactly one operation, executed as a Store whenever the op
character is not `L`. -/
theorem claim_C10_amended :
    (∀ l : List Char, l = [] ∨ l.head? = some '#' → ParseLine l = LineOutcome.ignored) ∧
    (∀ (w1 : List Char) (t : Char) (w2 : List Char),
      (∀ c ∈ w1, IsWs c = true) → IsWs t = false → t ≠ '#' →
      (∀ c ∈ w2, IsWs c = true) →
      ParseLine (w1 ++ t :: w2) = LineOutcome.skippedSilent) ∧
    (∀ (t : Char) (sep tok : List Char), IsWs t = false → t ≠ '#' → tok ≠ [] →
      (∀ c ∈ sep, IsWs c = true) → (∀ c ∈ tok, IsWs c = false) →
      (Stoull16 tok = none → ParseLine (t :: (sep ++ tok)) = LineOutcome.skippedDiag) ∧
      (∀ v, Stoull16 tok = some v →
        ParseLine (t :: (sep ++ tok)) = LineOutcome.parsedOp ⟨t, v⟩ ∧
        (t ≠ 'L' → DispatchType ⟨t, v⟩ = AccessType.kStore))) ∧
    (∀ (l : List Char) (ls : List (List Char)),
      (∀ op, ParseLine l ≠ LineOutcome.parsedOp op) →
      ParseTraceLines (l :: ls) = ParseTraceLines ls) := by
  refine ⟨?_, ?_, ?_, ?_⟩
  · intro l h
    rcases h with h | h
    · subst h
      decide
    · unfold ParseLine
      rw [if_pos (Or.inr h)]
  · intro w1 t w2 hw1 hwt htH hw2
    exact parseLine_one_token w1 t w2 hw1 hwt htH hw2
  · intro t sep tok hwt htH htne hsep hall
    constructor
    · intro hnone
      rw [parseLine_op_token t sep tok hwt htH htne hsep hall, hnone]
    · intro v hv
      refine ⟨?_, fun htL => ?_⟩
      · rw [parseLine_op_token t sep tok hwt htH htne hsep hall, hv]
      · unfold DispatchType
        simp only [if_neg htL]
  · intro l ls h
    cases hp : ParseLine l with
    | parsedOp op => exact (h op hp).elim
    | ignored => simp [ParseTraceLines, List.filterMap_cons, hp]
    | skippedSilent => simp [ParseTraceLines, List.filterMap_cons, hp]
    | skippedDiag => simp [ParseTraceLines, List.filterMap_cons, hp]

/-- Witness for the amended C10 at concrete lines, covering the silent skip
of a one-character line, the glued one-token line `"L1"` that parses to an
operation, the diagnostic skip of `"Lx"`, and the Store dispatch of an
unvalidated op character. -/
theorem claim_C10_amended_witness :
    ParseLine ['#', 'x'] = LineOutcome.ignored ∧
    ParseLine [' ', 'L', ' '] = LineOutcome.skippedSilent ∧
    ParseLine ['L', '1'] = LineOutcome.parsedOp ⟨'L', 1⟩ ∧
    ParseLine ['L', 'x'] = LineOutcome.skippedDiag ∧
    ParseLine ['X', ' ', '5'] = LineOutcome.parsedOp ⟨'X', 5⟩ ∧
    DispatchType ⟨'X', 5⟩ = AccessType.kStore ∧
    ParseTraceLines [['L'], ['L', ' ', '5']] = ParseTraceLines [['L', ' ', '5']] := by
  obtain ⟨ha, hs, hb, hc⟩ := claim_C10_amended
  have h1 := hb 'L' [] ['1'] (by decide) (by decide) (by decide) (by decide) (by decide)
  have h2 := hb 'L' [] ['x'] (by decide) (by decide) (by decide) (by decide) (by decide)
  have h3 := hb 'X' [' '] ['5'] (by decide) (by decide) (by decide) (by decide) (by decide)
  have h4 := h3.2 5 (by decide)
  have h5 : ∀ op, ParseLine ['L'] ≠ LineOutcome.parsedOp op := by
    intro op hop
    rw [show ParseLine ['L'] = LineOutcome.skippedSilent by decide] at hop
    cases hop
  exact ⟨ha ['#', 'x'] (Or.inr rfl),
    hs [' '] 'L' [' '] (by decide) (by decide) (by decide) (by decide),
    (h1.2 1 (by decide)).1, h2.1 (by decide), h4.1, h4.2 (by decide),
    hc ['L'] [['L', ' ', '5']] h5⟩

end Stratum
